import Mathlib

/-!
# Verification of the archy admission webhook against its specification

This file gives a shallow embedding, in Lean 4, of the core components of the
archy mutating admission webhook (Go), and proves or refutes the frozen claims
about its behaviour.

Modelling conventions:
* Go `time.Time` is modelled by a logical clock of type `Nat`; every call of
  `time.Now()` inside a cache operation yields the next tick (the Go clock is
  monotone; successive calls are modelled as strictly increasing).
* Go `time.Duration` values (which may be zero or negative) are modelled by
  `Int`; instants are compared with `<` mirroring `time.Time.After`.
* Go `map[string]T` is modelled by an association list `List (String × T)`
  with unique keys; `range` iteration is the list order (Go's map iteration
  order is unspecified; every theorem proved here about a `range` loop holds
  because the loop body's result is order-independent under the theorem's
  hypotheses, and every counterexample is order-independent as well).
* Fallible Go functions returning `(T, error)` are modelled with `Except` or
  with an explicit error component.
-/

namespace Archy

/-! ## Component C1: the in-memory cache (`internal/cache`, file `memory.go`)

Faithful embedding of `CacheEntry`, `CacheStats`, `MemoryCache` and the
operations `Get`, `Set`, `evictLRU`, `Len`, `Stats`.  The `sync.RWMutex` is
dropped: each operation is an atomic step on the state. -/

/-- Embeds Go `CacheEntry{Value []string; Expiration, AccessTime time.Time}`. -/
structure CacheEntry where
  value : List String
  expiration : Int
  accessTime : Nat
  deriving Repr, DecidableEq

/-- Embeds Go `CacheStats{Hits, Misses, Evictions int}`. -/
structure CacheStats where
  hits : Nat
  misses : Nat
  evictions : Nat
  deriving Repr, DecidableEq

/-- Embeds Go `MemoryCache`; `items` models the Go map, `clock` models the
current value of the wall clock (`time.Now()` returns `clock + 1` and
advances it). -/
structure MemoryCache where
  items : List (String × CacheEntry)
  capacity : Nat
  ttl : Int
  stats : CacheStats
  clock : Nat
  deriving Repr, DecidableEq

/-- Embeds `NewMemoryCache(capacity, ttl)`. -/
def newMemoryCache (capacity : Nat) (ttl : Int) : MemoryCache :=
  { items := [], capacity := capacity, ttl := ttl
    stats := ⟨0, 0, 0⟩, clock := 0 }

/-- Lookup in the Go map (`entry, exists := c.items[key]`). -/
def mapFind (items : List (String × CacheEntry)) (key : String) :
    Option CacheEntry :=
  match items with
  | [] => none
  | (k, e) :: rest => if k = key then some e else mapFind rest key

/-- Go map assignment `c.items[key] = entry`: replaces the binding in place
when the key is present, appends otherwise. -/
def mapInsert (items : List (String × CacheEntry)) (key : String)
    (entry : CacheEntry) : List (String × CacheEntry) :=
  match items with
  | [] => [(key, entry)]
  | (k, e) :: rest =>
      if k = key then (k, entry) :: rest else (k, e) :: mapInsert rest key entry

/-- Go `delete(c.items, key)`. -/
def mapDelete (items : List (String × CacheEntry)) (key : String) :
    List (String × CacheEntry) :=
  match items with
  | [] => []
  | (k, e) :: rest =>
      if k = key then rest else (k, e) :: mapDelete rest key

/-- The loop body of `evictLRU`: scan all items tracking the key with the
smallest `AccessTime` (`entry.AccessTime.Before(oldestTime)`); the `first`
flag of the Go loop is absorbed by seeding the fold with the head. -/
def oldestKeyOf (items : List (String × CacheEntry)) : String :=
  match items with
  | [] => ""
  | (k, e) :: rest =>
      (rest.foldl
        (fun acc p => if p.2.accessTime < acc.2 then (p.1, p.2.accessTime) else acc)
        (k, e.accessTime)).1

/-- Embeds `MemoryCache.evictLRU`, including the early return on an empty map
and the `if oldestKey != ""` guard before the delete (the Go local
`oldestKey` is written out as `oldestKeyOf c.items`). -/
def MemoryCache.evictLRU (c : MemoryCache) : MemoryCache :=
  if c.items.isEmpty then c
  else if oldestKeyOf c.items ≠ "" then
    { c with items := mapDelete c.items (oldestKeyOf c.items)
             stats := { c.stats with evictions := c.stats.evictions + 1 } }
  else c

/-- The entry built by `Set`: `now` is `c.clock + 1`, the expiration is
`now + ttl`, overridden to `now` when `ttl <= 0`. -/
def setEntry (c : MemoryCache) (value : List String) : CacheEntry :=
  ⟨value,
   if c.ttl ≤ 0 then ((c.clock + 1 : Nat) : Int)
   else ((c.clock + 1 : Nat) : Int) + c.ttl,
   c.clock + 1⟩

/-- Embeds `MemoryCache.Set`: store the entry built at `now`, then evict iff
the count exceeds capacity (the Go locals `now`/`entry`/`c.items[key] = entry`
are written out via `setEntry` and `mapInsert`). -/
def MemoryCache.set (c : MemoryCache) (key : String) (value : List String) :
    MemoryCache :=
  if (mapInsert c.items key (setEntry c value)).length > c.capacity then
    MemoryCache.evictLRU
      { c with clock := c.clock + 1
               items := mapInsert c.items key (setEntry c value) }
  else
    { c with clock := c.clock + 1
             items := mapInsert c.items key (setEntry c value) }

/-- Embeds `MemoryCache.Get`: miss on absent key; the expiry branch is guarded
by `c.ttl > 0` exactly as in the source (`if c.ttl > 0 && time.Now().After(entry.Expiration)`);
a hit updates the access time. -/
def MemoryCache.get (c : MemoryCache) (key : String) :
    Option (List String) × MemoryCache :=
  match mapFind c.items key with
  | none =>
      (none, { c with clock := c.clock + 1
                      stats := { c.stats with misses := c.stats.misses + 1 } })
  | some entry =>
      if (0 : Int) < c.ttl ∧ entry.expiration < ((c.clock + 1 : Nat) : Int) then
        (none, { c with clock := c.clock + 1
                        items := mapDelete c.items key
                        stats := { c.stats with misses := c.stats.misses + 1 } })
      else
        (some entry.value,
         { c with clock := c.clock + 1
                  items := mapInsert c.items key
                    { entry with accessTime := c.clock + 1 }
                  stats := { c.stats with hits := c.stats.hits + 1 } })

/-- Embeds `MemoryCache.Len`. -/
def MemoryCache.len (c : MemoryCache) : Nat := c.items.length

/-- Runs a sequence of `Set` operations (`cache.Set(k, v)` for each pair). -/
def runSets (c : MemoryCache) (ops : List (String × List String)) : MemoryCache :=
  ops.foldl (fun c op => c.set op.1 op.2) c

/-- C1: with `ttl = 0` a `Set` stores an entry whose expiration equals its
creation instant, but `Get` still returns it: the expiry check is skipped
when `ttl ≤ 0`. -/
theorem zeroTTL_get_returns_present :
    (((newMemoryCache 100 0).set "test-key" ["amd64"]).get "test-key").1
      = some ["amd64"] := by decide

/-! ### Supporting lemmas about the map model and `evictLRU` -/

theorem mem_mapInsert {items : List (String × CacheEntry)} {key : String}
    {entry : CacheEntry} {p : String × CacheEntry}
    (hp : p ∈ mapInsert items key entry) : p.1 = key ∨ p ∈ items := by
  induction items with
  | nil =>
    simp only [mapInsert, List.mem_singleton] at hp
    subst hp; exact Or.inl rfl
  | cons head rest ih =>
    obtain ⟨k, e⟩ := head
    simp only [mapInsert] at hp
    by_cases hk : k = key
    · simp only [if_pos hk] at hp
      rcases List.mem_cons.mp hp with h | h
      · subst h; exact Or.inl hk
      · exact Or.inr (List.mem_cons_of_mem _ h)
    · simp only [if_neg hk] at hp
      rcases List.mem_cons.mp hp with h | h
      · exact Or.inr (h ▸ List.mem_cons_self _ _)
      · rcases ih h with h' | h'
        · exact Or.inl h'
        · exact Or.inr (List.mem_cons_of_mem _ h')

theorem mapInsert_length (items : List (String × CacheEntry)) (key : String)
    (entry : CacheEntry) :
    (mapInsert items key entry).length ≤ items.length + 1 := by
  induction items with
  | nil => simp [mapInsert]
  | cons head rest ih =>
    obtain ⟨k, e⟩ := head
    simp only [mapInsert]
    by_cases hk : k = key
    · simp [if_pos hk]
    · simpa [if_neg hk] using Nat.succ_le_succ ih

theorem mapDelete_length_of_mem {items : List (String × CacheEntry)}
    {key : String} (h : key ∈ items.map Prod.fst) :
    (mapDelete items key).length + 1 = items.length := by
  induction items with
  | nil => simp at h
  | cons head rest ih =>
    obtain ⟨k, e⟩ := head
    simp only [mapDelete]
    by_cases hk : k = key
    · simp [if_pos hk]
    · simp only [if_neg hk, List.length_cons]
      have hkey : key ∈ rest.map Prod.fst := by
        rcases List.mem_map.mp h with ⟨q, hq, hqk⟩
        rcases List.mem_cons.mp hq with h' | h'
        · exact absurd (by rw [h'] at hqk; exact hqk) hk
        · exact List.mem_map.mpr ⟨q, h', hqk⟩
      rw [← ih hkey]

theorem mem_mapDelete_of_ne {items : List (String × CacheEntry)} {key : String}
    {p : String × CacheEntry} (hp : p ∈ items) (hne : p.1 ≠ key) :
    p ∈ mapDelete items key := by
  induction items with
  | nil => simp at hp
  | cons head rest ih =>
    obtain ⟨k, e⟩ := head
    simp only [mapDelete]
    by_cases hk : k = key
    · simp only [if_pos hk]
      rcases List.mem_cons.mp hp with h | h
      · exact absurd (by rw [h] at hne ⊢; exact hk) hne
      · exact h
    · simp only [if_neg hk]
      rcases List.mem_cons.mp hp with h | h
      · exact h ▸ List.mem_cons_self _ _
      · exact List.mem_cons_of_mem _ (ih h)

/-- The scan step of `evictLRU`'s loop. -/
def lruStep (acc : String × Nat) (p : String × CacheEntry) : String × Nat :=
  if p.2.accessTime < acc.2 then (p.1, p.2.accessTime) else acc

theorem oldestKeyOf_cons (k : String) (e : CacheEntry)
    (rest : List (String × CacheEntry)) :
    oldestKeyOf ((k, e) :: rest) = (rest.foldl lruStep (k, e.accessTime)).1 := rfl

theorem lruFold_spec (rest : List (String × CacheEntry)) (acc : String × Nat) :
    (rest.foldl lruStep acc = acc ∨
      ∃ p ∈ rest, rest.foldl lruStep acc = (p.1, p.2.accessTime)) ∧
    (rest.foldl lruStep acc).2 ≤ acc.2 ∧
    ∀ p ∈ rest, (rest.foldl lruStep acc).2 ≤ p.2.accessTime := by
  induction rest generalizing acc with
  | nil => exact ⟨Or.inl rfl, Nat.le_refl _, by simp⟩
  | cons q rest ih =>
    have hfold : (q :: rest).foldl lruStep acc = rest.foldl lruStep (lruStep acc q) := rfl
    obtain ⟨horig, hle, hmin⟩ := ih (lruStep acc q)
    have hstep_le : (lruStep acc q).2 ≤ acc.2 := by
      unfold lruStep; split
      · exact Nat.le_of_lt (by assumption)
      · exact Nat.le_refl _
    have hstep_q : (lruStep acc q).2 ≤ q.2.accessTime := by
      unfold lruStep; split
      · exact Nat.le_refl _
      · exact Nat.le_of_not_lt (by assumption)
    refine ⟨?_, ?_, ?_⟩
    · rcases horig with h | ⟨p, hp, hres⟩
      · rw [hfold, h]
        unfold lruStep
        split
        · exact Or.inr ⟨q, List.mem_cons_self _ _, rfl⟩
        · exact Or.inl rfl
      · exact Or.inr ⟨p, List.mem_cons_of_mem _ hp, by rw [hfold, hres]⟩
    · rw [hfold]; exact Nat.le_trans hle hstep_le
    · intro p hp
      rcases List.mem_cons.mp hp with rfl | h
      · rw [hfold]; exact Nat.le_trans hle hstep_q
      · rw [hfold]; exact hmin p h

theorem oldestKeyOf_spec {items : List (String × CacheEntry)}
    (hne : items ≠ []) :
    ∃ em : CacheEntry, (oldestKeyOf items, em) ∈ items ∧
      ∀ p ∈ items, em.accessTime ≤ p.2.accessTime := by
  match items, hne with
  | (k, e) :: rest, _ =>
    obtain ⟨horig, hle, hmin⟩ := lruFold_spec rest (k, e.accessTime)
    rw [oldestKeyOf_cons]
    rcases horig with h | ⟨p, hp, hres⟩
    · refine ⟨e, ?_, ?_⟩
      · rw [h]; exact List.mem_cons_self _ _
      · intro p hp
        rcases List.mem_cons.mp hp with h' | h'
        · rw [h']
        · have := hmin p h'
          rw [h] at this
          exact this
    · refine ⟨p.2, ?_, ?_⟩
      · rw [hres]; exact List.mem_cons_of_mem _ hp
      · intro q hq
        have h2 : (rest.foldl lruStep (k, e.accessTime)).2 = p.2.accessTime := by
          rw [hres]
        rcases List.mem_cons.mp hq with h' | h'
        · rw [h', ← h2]; exact hle
        · rw [← h2]; exact hmin q h'

theorem oldestKeyOf_mem {items : List (String × CacheEntry)} (hne : items ≠ []) :
    oldestKeyOf items ∈ items.map Prod.fst := by
  obtain ⟨em, hmem, _⟩ := oldestKeyOf_spec hne
  exact List.mem_map.mpr ⟨(oldestKeyOf items, em), hmem, rfl⟩

theorem evictLRU_len {c : MemoryCache} (hne : c.items ≠ [])
    (hkeys : ∀ p ∈ c.items, p.1 ≠ "") :
    (c.evictLRU).items.length + 1 = c.items.length := by
  unfold MemoryCache.evictLRU
  rw [if_neg (by simpa [List.isEmpty_iff] using hne)]
  have hok : oldestKeyOf c.items ∈ c.items.map Prod.fst := oldestKeyOf_mem hne
  have hok_ne : oldestKeyOf c.items ≠ "" := by
    rcases List.mem_map.mp hok with ⟨p, hp, hpk⟩
    exact hpk ▸ hkeys p hp
  rw [if_pos hok_ne]
  exact mapDelete_length_of_mem hok

theorem evictLRU_keys {c : MemoryCache} {p : String × CacheEntry}
    (hp : p ∈ (c.evictLRU).items) : p ∈ c.items := by
  unfold MemoryCache.evictLRU at hp
  split at hp
  · exact hp
  · split at hp
    · exact (mapDelete_sub hp)
    · exact hp
where
  mapDelete_sub {items : List (String × CacheEntry)} {key : String}
      {p : String × CacheEntry} (h : p ∈ mapDelete items key) : p ∈ items := by
    induction items with
    | nil => simp [mapDelete] at h
    | cons head rest ih =>
      obtain ⟨k, e⟩ := head
      simp only [mapDelete] at h
      split at h
      · exact List.mem_cons_of_mem _ h
      · rcases List.mem_cons.mp h with h' | h'
        · exact h' ▸ List.mem_cons_self _ _
        · exact List.mem_cons_of_mem _ (ih h')

theorem evictLRU_capacity (c : MemoryCache) :
    (c.evictLRU).capacity = c.capacity := by
  unfold MemoryCache.evictLRU
  split
  · rfl
  · split <;> rfl

/-- One `Set` preserves the capacity bound together with the invariant that
all keys are non-empty. -/
theorem set_preserves_inv {c : MemoryCache} {key : String} {v : List String}
    (hkey : key ≠ "") (hkeys : ∀ p ∈ c.items, p.1 ≠ "")
    (hlen : c.items.length ≤ c.capacity) :
    (c.set key v).items.length ≤ c.capacity ∧
    (c.set key v).capacity = c.capacity ∧
    (∀ p ∈ (c.set key v).items, p.1 ≠ "") := by
  have hinskeys : ∀ p ∈ mapInsert c.items key (setEntry c v), p.1 ≠ "" := by
    intro p hp
    rcases mem_mapInsert hp with h | h
    · exact h ▸ hkey
    · exact hkeys p h
  have hinslen : (mapInsert c.items key (setEntry c v)).length
      ≤ c.items.length + 1 := mapInsert_length _ _ _
  unfold MemoryCache.set
  by_cases hover : (mapInsert c.items key (setEntry c v)).length > c.capacity
  · rw [if_pos hover]
    have hne : ({ c with clock := c.clock + 1
                         items := mapInsert c.items key (setEntry c v) }
        : MemoryCache).items ≠ [] := by
      intro h
      have h0 : (mapInsert c.items key (setEntry c v)).length = 0 :=
        by simpa using congrArg List.length h
      omega
    have hlen' := evictLRU_len hne hinskeys
    refine ⟨?_, evictLRU_capacity _, fun p hp => hinskeys p (evictLRU_keys hp)⟩
    simp only [] at hlen'
    omega
  · rw [if_neg hover]
    exact ⟨Nat.le_of_not_lt hover, rfl, hinskeys⟩

theorem runSets_le_capacity : ∀ (ops : List (String × List String))
    (c : MemoryCache), (∀ p ∈ ops, p.1 ≠ "") → (∀ p ∈ c.items, p.1 ≠ "") →
    c.items.length ≤ c.capacity →
    (runSets c ops).capacity = c.capacity ∧
    (runSets c ops).items.length ≤ c.capacity := by
  intro ops
  induction ops with
  | nil => intro c _ _ hlen; exact ⟨rfl, hlen⟩
  | cons op rest ih =>
    intro c hops hkeys hlen
    have hop : op.1 ≠ "" := hops op (List.mem_cons_self _ _)
    obtain ⟨h1, h2, h3⟩ := set_preserves_inv (c := c) (v := op.2) hop hkeys hlen
    have hrest : ∀ p ∈ rest, p.1 ≠ "" :=
      fun p hp => hops p (List.mem_cons_of_mem _ hp)
    have hih := ih (c.set op.1 op.2) hrest h3 (by rw [h2]; exact h1)
    have hrun : runSets c (op :: rest) = runSets (c.set op.1 op.2) rest := rfl
    rw [hrun]
    exact ⟨hih.1.trans h2, by rw [← h2]; exact hih.2⟩

/-- C3 (counterexample to the claim as stated): with capacity 1 and the empty
string as a key, the eviction guard `oldestKey != ""` suppresses the eviction
and the cache ends up holding 2 entries. -/
theorem capacity_counterexample :
    ¬ ((runSets (newMemoryCache 1 3600) [("", ["arch1"]), ("k2", ["arch2"])]).len
        ≤ 1) := by decide

/-- C3 (amended): for every sequence of `Set` operations whose keys are all
non-empty, the observable entry count never exceeds the capacity. -/
theorem capacity_invariant (N : Nat) (ttl : Int)
    (ops : List (String × List String)) (h : ∀ p ∈ ops, p.1 ≠ "") :
    (runSets (newMemoryCache N ttl) ops).len ≤ N :=
  (runSets_le_capacity ops (newMemoryCache N ttl) h (by simp [newMemoryCache])
    (by simp [newMemoryCache])).2

theorem capacity_invariant_witness :
    (∀ p ∈ [("k1", ["amd64"]), ("k2", ["arm64"])], p.1 ≠ "") ∧
    (runSets (newMemoryCache 1 300) [("k1", ["amd64"]), ("k2", ["arm64"])]).len
      ≤ 1 :=
  ⟨by decide, capacity_invariant 1 300 [("k1", ["amd64"]), ("k2", ["arm64"])]
    (by decide)⟩

/-! ### LRU eviction: which entry is removed -/

theorem mem_keys_mapInsert {items : List (String × CacheEntry)} {key k' : String}
    {entry : CacheEntry} :
    k' ∈ (mapInsert items key entry).map Prod.fst ↔
      k' = key ∨ k' ∈ items.map Prod.fst := by
  induction items with
  | nil => simp [mapInsert]
  | cons head rest ih =>
    obtain ⟨k, e⟩ := head
    simp only [mapInsert]
    by_cases hk : k = key
    · subst hk
      rw [if_pos rfl]
      simp only [List.map_cons, List.mem_cons]
      tauto
    · rw [if_neg hk]
      simp only [List.map_cons, List.mem_cons, ih]
      tauto

theorem nodup_keys_mapInsert {items : List (String × CacheEntry)} {key : String}
    {entry : CacheEntry} (h : (items.map Prod.fst).Nodup) :
    ((mapInsert items key entry).map Prod.fst).Nodup := by
  induction items with
  | nil => simp [mapInsert]
  | cons head rest ih =>
    obtain ⟨k, e⟩ := head
    simp only [List.map_cons, List.nodup_cons] at h
    simp only [mapInsert]
    by_cases hk : k = key
    · simp only [if_pos hk, List.map_cons, List.nodup_cons]
      exact h
    · simp only [if_neg hk, List.map_cons, List.nodup_cons]
      refine ⟨?_, ih h.2⟩
      intro hmem
      rcases mem_keys_mapInsert.mp hmem with h' | h'
      · exact hk h'
      · exact h.1 h'

theorem entry_unique_of_nodup_keys {items : List (String × CacheEntry)}
    (h : (items.map Prod.fst).Nodup) {k : String} {a b : CacheEntry}
    (ha : (k, a) ∈ items) (hb : (k, b) ∈ items) : a = b := by
  induction items with
  | nil => simp at ha
  | cons head rest ih =>
    simp only [List.map_cons, List.nodup_cons] at h
    rcases List.mem_cons.mp ha with ha' | ha' <;>
      rcases List.mem_cons.mp hb with hb' | hb'
    · rw [← ha'] at hb'; exact congrArg Prod.snd (hb'.symm)
    · exact absurd (List.mem_map.mpr ⟨(k, b), hb', by rw [← ha']⟩) h.1
    · exact absurd (List.mem_map.mpr ⟨(k, a), ha', by rw [← hb']⟩) h.1
    · exact ih h.2 ha' hb'

theorem evictLRU_spec {c : MemoryCache} (hne : c.items ≠ [])
    (hkeys : ∀ p ∈ c.items, p.1 ≠ "") :
    c.evictLRU.items = mapDelete c.items (oldestKeyOf c.items) ∧
    c.evictLRU.stats.evictions = c.stats.evictions + 1 := by
  have hok : oldestKeyOf c.items ∈ c.items.map Prod.fst := oldestKeyOf_mem hne
  have hok_ne : oldestKeyOf c.items ≠ "" := by
    rcases List.mem_map.mp hok with ⟨p, hp, hpk⟩
    exact hpk ▸ hkeys p hp
  unfold MemoryCache.evictLRU
  rw [if_neg (by simpa [List.isEmpty_iff] using hne), if_pos hok_ne]
  exact ⟨rfl, rfl⟩

/-- C7 (amended): a `Set` over capacity, on a cache whose keys (and the new
key) are non-empty and unique, removes exactly one entry, that entry has the
minimum access time, and any entry strictly newer than some other entry
survives. -/
theorem lru_eviction (c : MemoryCache) (key : String) (v : List String)
    (hkey : key ≠ "") (hkeys : ∀ p ∈ c.items, p.1 ≠ "")
    (hnodup : (c.items.map Prod.fst).Nodup)
    (hover : (mapInsert c.items key (setEntry c v)).length > c.capacity) :
    (c.set key v).items.length + 1
        = (mapInsert c.items key (setEntry c v)).length ∧
    (c.set key v).stats.evictions = c.stats.evictions + 1 ∧
    (∀ p ∈ mapInsert c.items key (setEntry c v), p ∉ (c.set key v).items →
      ∀ q ∈ mapInsert c.items key (setEntry c v),
        p.2.accessTime ≤ q.2.accessTime) ∧
    (∀ p q, p ∈ mapInsert c.items key (setEntry c v) →
      q ∈ mapInsert c.items key (setEntry c v) →
      p.2.accessTime < q.2.accessTime → q ∈ (c.set key v).items) := by
  have hinskeys : ∀ p ∈ mapInsert c.items key (setEntry c v), p.1 ≠ "" := by
    intro p hp
    rcases mem_mapInsert hp with h | h
    · exact h ▸ hkey
    · exact hkeys p h
  have hinsnodup : ((mapInsert c.items key (setEntry c v)).map Prod.fst).Nodup :=
    nodup_keys_mapInsert hnodup
  have hset : c.set key v = MemoryCache.evictLRU
      { c with clock := c.clock + 1
               items := mapInsert c.items key (setEntry c v) } := by
    unfold MemoryCache.set
    rw [if_pos hover]
  set c' : MemoryCache :=
    { c with clock := c.clock + 1
             items := mapInsert c.items key (setEntry c v) } with hc'
  have hc'items : c'.items = mapInsert c.items key (setEntry c v) := rfl
  have hne : c'.items ≠ [] := by
    intro h
    have h0 : (mapInsert c.items key (setEntry c v)).length = 0 :=
      by simpa using congrArg List.length h
    omega
  obtain ⟨hdel, hev⟩ := evictLRU_spec hne (hc'items ▸ hinskeys)
  obtain ⟨em, hem_mem, hem_min⟩ := oldestKeyOf_spec hne
  refine ⟨?_, ?_, ?_, ?_⟩
  · rw [hset, hdel, hc'items]
    exact mapDelete_length_of_mem (hc'items ▸ oldestKeyOf_mem hne)
  · rw [hset, hev]
  · intro p hp hnotin q hq
    rw [hset, hdel] at hnotin
    by_cases hpk : p.1 = oldestKeyOf c'.items
    · have hpair : (oldestKeyOf c'.items, p.2) ∈ c'.items := by
        rw [hc'items]; rw [← hpk]; exact hp
      have : p.2 = em :=
        entry_unique_of_nodup_keys (hc'items ▸ hinsnodup) hpair hem_mem
      rw [this]
      exact hem_min q (hc'items ▸ hq)
    · exact absurd (mem_mapDelete_of_ne (hc'items ▸ hp) hpk) hnotin
  · intro p q hp hq hlt
    rw [hset, hdel]
    have hq_ne : q.1 ≠ oldestKeyOf c'.items := by
      intro hqk
      have hpair : (oldestKeyOf c'.items, q.2) ∈ c'.items := by
        rw [hc'items]; rw [← hqk]; exact hq
      have hq2 : q.2 = em :=
        entry_unique_of_nodup_keys (hc'items ▸ hinsnodup) hpair hem_mem
      have : em.accessTime ≤ p.2.accessTime := hem_min p (hc'items ▸ hp)
      rw [hq2] at hlt
      omega
    exact mem_mapDelete_of_ne (hc'items ▸ hq) hq_ne

/-- C7 (counterexample to the claim as stated): on a capacity-1 cache, a `Set`
that brings the count to 2 removes no entry at all when the least-recently
used entry's key is the empty string — the eviction counter stays 0 and both
entries remain. -/
theorem lru_counterexample :
    (runSets (newMemoryCache 1 7200)
        [("", ["amd64"]), ("web", ["arm64"])]).stats.evictions = 0 ∧
    (runSets (newMemoryCache 1 7200)
        [("", ["amd64"]), ("web", ["arm64"])]).len = 2 := by decide

def lruWitnessCache : MemoryCache := (newMemoryCache 1 3600).set "k1" ["a"]

theorem lru_eviction_witness :
    (("k2" : String) ≠ "" ∧ (∀ p ∈ lruWitnessCache.items, p.1 ≠ "") ∧
     (lruWitnessCache.items.map Prod.fst).Nodup ∧
     (mapInsert lruWitnessCache.items "k2"
        (setEntry lruWitnessCache ["b"])).length > lruWitnessCache.capacity) ∧
    ((lruWitnessCache.set "k2" ["b"]).items.length + 1
        = (mapInsert lruWitnessCache.items "k2"
            (setEntry lruWitnessCache ["b"])).length ∧
     (lruWitnessCache.set "k2" ["b"]).stats.evictions
        = lruWitnessCache.stats.evictions + 1 ∧
     (∀ p ∈ mapInsert lruWitnessCache.items "k2"
          (setEntry lruWitnessCache ["b"]),
        p ∉ (lruWitnessCache.set "k2" ["b"]).items →
        ∀ q ∈ mapInsert lruWitnessCache.items "k2"
            (setEntry lruWitnessCache ["b"]),
          p.2.accessTime ≤ q.2.accessTime) ∧
     (∀ p q, p ∈ mapInsert lruWitnessCache.items "k2"
          (setEntry lruWitnessCache ["b"]) →
        q ∈ mapInsert lruWitnessCache.items "k2"
            (setEntry lruWitnessCache ["b"]) →
        p.2.accessTime < q.2.accessTime →
        q ∈ (lruWitnessCache.set "k2" ["b"]).items)) :=
  ⟨⟨by decide, by decide, by decide, by decide⟩,
   lru_eviction lruWitnessCache "k2" ["b"] (by decide) (by decide) (by decide)
     (by decide)⟩

/-! ## Component C8: the metrics label sanitizer
(`internal/metrics/prometheus.go`, `sanitizeLabel`)

Go strings are modelled as rune lists (`List Char`).  After step (i) every
rune of the string is ASCII, so the Go byte-length used by the truncation in
step (ii) coincides with the rune count. -/

/-- The character class kept by the regexp `[^a-zA-Z0-9_]` (its complement). -/
def isLabelChar (c : Char) : Bool :=
  ('a'.toNat ≤ c.toNat && c.toNat ≤ 'z'.toNat) ||
  ('A'.toNat ≤ c.toNat && c.toNat ≤ 'Z'.toNat) ||
  ('0'.toNat ≤ c.toNat && c.toNat ≤ '9'.toNat) ||
  (c == '_')

/-- Step (i): `labelSanitizer.ReplaceAllString(label, "_")`. -/
def replaceInvalid (l : List Char) : List Char :=
  l.map (fun c => if isLabelChar c then c else '_')

/-- One round of `strings.ReplaceAll(sanitized, "__", "_")`: leftmost,
non-overlapping. -/
def replaceDouble : List Char → List Char
  | [] => []
  | [c] => [c]
  | c1 :: c2 :: rest =>
      if c1 = '_' ∧ c2 = '_' then '_' :: replaceDouble rest
      else c1 :: replaceDouble (c2 :: rest)

/-- `strings.Contains(sanitized, "__")`. -/
def hasDouble : List Char → Bool
  | [] => false
  | [_] => false
  | c1 :: c2 :: rest =>
      if c1 = '_' ∧ c2 = '_' then true else hasDouble (c2 :: rest)

/-- The `for strings.Contains(sanitized, "__") { ... }` loop.  The loop is
given fuel `l.length`; each iteration strictly shrinks the list
(`length_replaceDouble_lt`), so the fuel never runs out and the fuelled
computation reaches the loop's exit condition (`hasDouble_collapseFuel`). -/
def collapseFuel : Nat → List Char → List Char
  | 0, l => l
  | fuel + 1, l => if hasDouble l then collapseFuel fuel (replaceDouble l) else l

/-- Step (iii): collapse consecutive underscores. -/
def collapseUnderscores (l : List Char) : List Char := collapseFuel l.length l

/-- Step (iv): `strings.Trim(sanitized, "_")`. -/
def trimUnderscores (l : List Char) : List Char :=
  (((l.dropWhile (· == '_')).reverse.dropWhile (· == '_'))).reverse

/-- Steps (i)-(iv) of `sanitizeLabel`: the content reduction. -/
def reduceLabel (l : List Char) : List Char :=
  trimUnderscores (collapseUnderscores ((replaceInvalid l).take 100))

/-- Embeds `sanitizeLabel`: the reduction result, or `"unknown"` when it is
empty. -/
def sanitizeLabel (l : List Char) : List Char :=
  if reduceLabel l = [] then "unknown".toList else reduceLabel l

/-! ### Supporting lemmas for the sanitizer -/

theorem mem_replaceDouble : ∀ {l : List Char} {c : Char},
    c ∈ replaceDouble l → c ∈ l
  | [], _, h => by simp [replaceDouble] at h
  | [d], c, h => by simpa [replaceDouble] using h
  | c1 :: c2 :: rest, c, h => by
      unfold replaceDouble at h
      split at h
      · rcases List.mem_cons.mp h with rfl | h'
        · have : c1 = '_' ∧ c2 = '_' := by assumption
          exact this.1 ▸ List.mem_cons_self _ _
        · exact List.mem_cons_of_mem _ (List.mem_cons_of_mem _
            (mem_replaceDouble h'))
      · rcases List.mem_cons.mp h with rfl | h'
        · exact List.mem_cons_self _ _
        · exact List.mem_cons_of_mem _ (mem_replaceDouble h')

theorem length_replaceDouble_le : ∀ l : List Char,
    (replaceDouble l).length ≤ l.length
  | [] => Nat.le_refl _
  | [c] => Nat.le_refl _
  | c1 :: c2 :: rest => by
      unfold replaceDouble
      split
      · have := length_replaceDouble_le rest
        simp only [List.length_cons]
        omega
      · have := length_replaceDouble_le (c2 :: rest)
        simp only [List.length_cons] at this ⊢
        omega

theorem length_replaceDouble_lt : ∀ {l : List Char}, hasDouble l = true →
    (replaceDouble l).length < l.length
  | [], h => by simp [hasDouble] at h
  | [c], h => by simp [hasDouble] at h
  | c1 :: c2 :: rest, h => by
      unfold replaceDouble
      unfold hasDouble at h
      split
      · have := length_replaceDouble_le rest
        simp only [List.length_cons]
        omega
      · rw [if_neg (by assumption)] at h
        have := length_replaceDouble_lt (l := c2 :: rest) h
        simp only [List.length_cons] at this ⊢
        omega

theorem hasDouble_collapseFuel : ∀ (fuel : Nat) (l : List Char),
    l.length ≤ fuel → hasDouble (collapseFuel fuel l) = false := by
  intro fuel
  induction fuel with
  | zero =>
    intro l hl
    have : l = [] := List.length_eq_zero.mp (Nat.le_zero.mp hl)
    subst this
    rfl
  | succ fuel ih =>
    intro l hl
    unfold collapseFuel
    by_cases hd : hasDouble l = true
    · rw [if_pos hd]
      exact ih _ (by have := length_replaceDouble_lt hd; omega)
    · rw [if_neg hd]
      exact Bool.not_eq_true _ ▸ hd

theorem mem_collapseFuel : ∀ (fuel : Nat) {l : List Char} {c : Char},
    c ∈ collapseFuel fuel l → c ∈ l := by
  intro fuel
  induction fuel with
  | zero => intro l c h; exact h
  | succ fuel ih =>
    intro l c h
    unfold collapseFuel at h
    split at h
    · exact mem_replaceDouble (ih h)
    · exact h

theorem length_collapseFuel_le : ∀ (fuel : Nat) (l : List Char),
    (collapseFuel fuel l).length ≤ l.length := by
  intro fuel
  induction fuel with
  | zero => intro l; exact Nat.le_refl _
  | succ fuel ih =>
    intro l
    unfold collapseFuel
    split
    · exact (ih _).trans (length_replaceDouble_le l)
    · exact Nat.le_refl _

theorem head?_dropWhile_not {p : Char → Bool} : ∀ {l : List Char} {c : Char},
    (l.dropWhile p).head? = some c → p c = false
  | [], c, h => by simp [List.dropWhile] at h
  | d :: rest, c, h => by
      rw [List.dropWhile_cons] at h
      split at h
      · exact head?_dropWhile_not h
      · simp only [List.head?_cons, Option.some.injEq] at h
        subst h
        rename_i hnp
        exact Bool.not_eq_true _ ▸ hnp

theorem getLast?_dropWhile {p : Char → Bool} : ∀ {l : List Char},
    l.dropWhile p ≠ [] → (l.dropWhile p).getLast? = l.getLast?
  | [], h => by simp [List.dropWhile] at h
  | d :: rest, h => by
      rw [List.dropWhile_cons] at h ⊢
      split at h
      · rename_i hp
        rw [if_pos hp]
        have hrest : rest ≠ [] := by
          intro he
          subst he
          simp [List.dropWhile] at h
        obtain ⟨r, rs, rfl⟩ := List.exists_cons_of_ne_nil hrest
        rw [getLast?_dropWhile h, List.getLast?_cons_cons]
      · rename_i hp
        rw [if_neg hp]

/-- The absence of `"__"` as the adjacent-pair condition. -/
def NoAdjUnd (l : List Char) : Prop :=
  l.Chain' (fun a b => ¬(a = '_' ∧ b = '_'))

theorem hasDouble_eq_false_iff : ∀ {l : List Char},
    hasDouble l = false ↔ NoAdjUnd l
  | [] => by simp [hasDouble, NoAdjUnd]
  | [c] => by simp [hasDouble, NoAdjUnd]
  | c1 :: c2 :: rest => by
      unfold hasDouble
      rw [NoAdjUnd, List.chain'_cons]
      by_cases hc : c1 = '_' ∧ c2 = '_'
      · rw [if_pos hc]
        simp [hc]
      · rw [if_neg hc]
        rw [← NoAdjUnd, ← hasDouble_eq_false_iff]
        simp [hc]

theorem noAdjUnd_reverse {l : List Char} (h : NoAdjUnd l) :
    NoAdjUnd l.reverse := by
  rw [NoAdjUnd, List.chain'_reverse]
  exact h.imp (fun a b hab => fun hc => hab ⟨hc.2, hc.1⟩)

theorem noAdjUnd_dropWhile {p : Char → Bool} {l : List Char}
    (h : NoAdjUnd l) : NoAdjUnd (l.dropWhile p) :=
  h.suffix (List.dropWhile_suffix p)

theorem reduceLabel_noDouble (l : List Char) :
    hasDouble (reduceLabel l) = false := by
  have h0 : hasDouble (collapseUnderscores ((replaceInvalid l).take 100))
      = false := hasDouble_collapseFuel _ _ (Nat.le_refl _)
  have h1 : NoAdjUnd (collapseUnderscores ((replaceInvalid l).take 100)) :=
    hasDouble_eq_false_iff.mp h0
  have h2 : NoAdjUnd (reduceLabel l) := by
    unfold reduceLabel trimUnderscores
    exact noAdjUnd_reverse (noAdjUnd_dropWhile (noAdjUnd_reverse
      (noAdjUnd_dropWhile h1)))
  exact hasDouble_eq_false_iff.mpr h2

theorem mem_reduceLabel {l : List Char} {c : Char} (h : c ∈ reduceLabel l) :
    isLabelChar c = true := by
  unfold reduceLabel trimUnderscores at h
  rw [List.mem_reverse] at h
  have h1 := ((List.dropWhile_suffix _).sublist.subset) h
  rw [List.mem_reverse] at h1
  have h2 := ((List.dropWhile_suffix _).sublist.subset) h1
  have h3 := mem_collapseFuel _ h2
  have h4 := List.mem_of_mem_take h3
  unfold replaceInvalid at h4
  rcases List.mem_map.mp h4 with ⟨d, _, hd⟩
  by_cases hval : isLabelChar d = true
  · rw [if_pos hval] at hd
    exact hd ▸ hval
  · rw [if_neg hval] at hd
    rw [← hd]
    decide

theorem reduceLabel_head {l : List Char} :
    (reduceLabel l).head? ≠ some '_' := by
  intro h
  unfold reduceLabel trimUnderscores at h
  rw [List.head?_reverse] at h
  set X := ((collapseUnderscores ((replaceInvalid l).take 100)).dropWhile
    (· == '_')).reverse.dropWhile (· == '_') with hX
  by_cases hne : X = []
  · rw [hne] at h
    simp at h
  · rw [getLast?_dropWhile (hX ▸ hne), List.getLast?_reverse] at h
    have := head?_dropWhile_not h
    simp at this

theorem reduceLabel_last {l : List Char} :
    (reduceLabel l).getLast? ≠ some '_' := by
  intro h
  unfold reduceLabel trimUnderscores at h
  rw [List.getLast?_reverse] at h
  have := head?_dropWhile_not h
  simp at this

theorem reduceLabel_length (l : List Char) : (reduceLabel l).length ≤ 100 := by
  have h1 : ((replaceInvalid l).take 100).length ≤ 100 :=
    List.length_take_le 100 (replaceInvalid l)
  have h2 : (collapseUnderscores ((replaceInvalid l).take 100)).length
      ≤ ((replaceInvalid l).take 100).length := length_collapseFuel_le _ _
  have h3 : ((collapseUnderscores ((replaceInvalid l).take 100)).dropWhile
        (· == '_')).length
      ≤ (collapseUnderscores ((replaceInvalid l).take 100)).length :=
    (List.dropWhile_suffix _).sublist.length_le
  have h4 : (((collapseUnderscores ((replaceInvalid l).take 100)).dropWhile
        (· == '_')).reverse.dropWhile (· == '_')).length
      ≤ ((collapseUnderscores ((replaceInvalid l).take 100)).dropWhile
        (· == '_')).reverse.length :=
    (List.dropWhile_suffix _).sublist.length_le
  unfold reduceLabel trimUnderscores
  simp only [List.length_reverse] at h4 ⊢
  omega

/-- C4 (amended): every sanitizer output uses only `[A-Za-z0-9_]`, has no run
of two underscores, neither starts nor ends with an underscore, has length at
most 100, and equals `"unknown"` whenever the reduction emptied the input
(the converse fails: see the counterexample). -/
theorem sanitizeLabel_spec (l : List Char) :
    (∀ c ∈ sanitizeLabel l, isLabelChar c = true) ∧
    hasDouble (sanitizeLabel l) = false ∧
    (sanitizeLabel l).head? ≠ some '_' ∧
    (sanitizeLabel l).getLast? ≠ some '_' ∧
    (sanitizeLabel l).length ≤ 100 ∧
    (reduceLabel l = [] → sanitizeLabel l = "unknown".toList) := by
  unfold sanitizeLabel
  by_cases h : reduceLabel l = []
  · rw [if_pos h]
    refine ⟨by decide, by decide, by decide, by decide, by decide, fun _ => rfl⟩
  · rw [if_neg h]
    exact ⟨fun c hc => mem_reduceLabel hc, reduceLabel_noDouble l,
      reduceLabel_head, reduceLabel_last, reduceLabel_length l,
      fun h' => absurd h' h⟩

/-- C4 (counterexample to the claim as stated): the input `"unknown"` is not
emptied by the reduction, yet the sanitizer output equals the literal
`"unknown"` — the "iff" direction of the claim fails. -/
theorem sanitizeLabel_counterexample :
    sanitizeLabel "unknown".toList = "unknown".toList ∧
    reduceLabel "unknown".toList ≠ [] := by decide

/-! ## Component C3: the registry client
(`internal/registry/dockerhub.go`, `DockerHubClient`)

The HTTP layer is abstracted by `DoResult`: the outcome of
`c.httpClient.Do(req)` combined with the body decode
(`json.NewDecoder(resp.Body).Decode(&manifest)`): a transport error whose
message contains `"timeout"`, any other transport error, or a response with a
status code and a decoded manifest body (`none` = JSON decode failure).
`HttpWorld` holds the outcome of the first request and of the (identical)
retry request issued on a 401.  Request construction
(`http.NewRequestWithContext`, whose error branches also fail open) is
modelled as always succeeding. -/

/-- A decoded `DockerHubManifest`: the `platform.architecture` field of each
element of `manifests`, in document order (possibly blank). -/
structure DockerHubManifest where
  manifests : List String
  deriving Repr, DecidableEq

/-- Outcome of one `httpClient.Do` plus body decode. -/
inductive DoResult where
  | timeoutErr
  | transportErr
  | resp (status : Nat) (body : Option DockerHubManifest)
  deriving Repr, DecidableEq

/-- The responses the registry returns to the first request and to the 401
retry. -/
structure HttpWorld where
  first : DoResult
  second : DoResult
  deriving Repr, DecidableEq

/-- The error kinds produced by `GetSupportedArchitectures` (each constructor
stands for the corresponding `fmt.Errorf` message). -/
inductive RegErr where
  | rateLimited          -- "rate limit exceeded"
  | accessDenied         -- "access denied to repository"
  | imageNotFound        -- "image not found"
  | unsupportedAPIVersion -- "API version not supported"
  | timeout              -- "request timeout: ..."
  | decodeFailure        -- "failed to decode manifest: ..."
  deriving Repr, DecidableEq

/-- `strings.Contains(s, c)` for a single-character separator, acting on the
rune list. -/
def containsChar (s : String) (c : Char) : Bool := s.toList.contains c

/-- Embeds `parseImageReference`: split on `":"`, default tag `latest`,
prefix `library/` when the repository has no `/`. -/
def parseImageReference (image : String) : String × String :=
  if image = "" then ("", "")
  else
    let parts := image.splitOn ":"
    let repo := parts.headD ""
    let tag := if parts.length > 1 then parts[1]! else "latest"
    if ¬ containsChar repo '/' then ("library/" ++ repo, tag) else (repo, tag)

/-- The dedup loop of `GetSupportedArchitectures`: append each non-blank
architecture not seen before.  The Go `seen` map always holds exactly the
set of elements of the accumulator, so the membership test is `∉ acc`. -/
def dedupAux : List String → List String → List String
  | [], acc => acc
  | a :: rest, acc =>
      if a ≠ "" ∧ a ∉ acc then dedupAux rest (acc ++ [a]) else dedupAux rest acc

def dedupArchs (l : List String) : List String := dedupAux l []

/-- The loop of `retryWithAuth`: append every non-blank architecture (no
dedup on this path). -/
def retryArchs (l : List String) : List String := l.filter (· ≠ "")

/-- Embeds `DockerHubClient.retryWithAuth` (the retry request is identical to
the first; its outcome is `w.second`). -/
def retryWithAuth (w : HttpWorld) : Except RegErr (List String) :=
  match w.second with
  | .timeoutErr => .ok ["amd64"]
  | .transportErr => .ok ["amd64"]
  | .resp status body =>
      if status ≠ 200 then .ok ["amd64"]
      else
        match body with
        | none => .ok ["amd64"]
        | some doc =>
            if retryArchs doc.manifests = [] then .ok ["amd64"]
            else .ok (retryArchs doc.manifests)

/-- Embeds `DockerHubClient.GetSupportedArchitectures`. -/
def getSupportedArchitectures (w : HttpWorld) (image : String) :
    Except RegErr (List String) :=
  if (parseImageReference image).1 = "" then .ok ["amd64"]
  else
    match w.first with
    | .timeoutErr => .error .timeout
    | .transportErr => .ok ["amd64"]
    | .resp status body =>
        if status = 429 then .error .rateLimited
        else if status = 401 then retryWithAuth w
        else if status = 403 then .error .accessDenied
        else if status = 404 then .error .imageNotFound
        else if status = 400 then .error .unsupportedAPIVersion
        else if status = 200 then
          match body with
          | none => .error .decodeFailure
          | some doc =>
              if dedupArchs doc.manifests = [] then .ok ["amd64"]
              else .ok (dedupArchs doc.manifests)
        else .ok ["amd64"]

theorem parseImageReference_repo_ne {image : String} (h : image ≠ "") :
    (parseImageReference image).1 ≠ "" := by
  unfold parseImageReference
  rw [if_neg h]
  by_cases hc : containsChar ((image.splitOn ":").headD "") '/' = true
  · rw [if_neg (fun hn => hn hc)]
    intro he
    have he' : (image.splitOn ":").headD "" = "" := he
    rw [he'] at hc
    exact absurd hc (by decide)
  · rw [if_pos hc]
    intro he
    have he' : ("library/" ++ (image.splitOn ":").headD "") = "" := he
    have h0 : ("library/" ++ (image.splitOn ":").headD "").length = 0 := by
      rw [he']
      rfl
    rw [String.length_append] at h0
    have h8 : ("library/" : String).length = 8 := rfl
    omega

/-- C5: `GetSupportedArchitectures` maps response statuses to outcomes as the
table specifies: 200 decodes the body (default-arch singleton when the
decoded, deduplicated list is empty), 401 retries once and on second failure
yields the default singleton, 403/404/400/429 fail with the corresponding
error kind, and any other status fails open to the default singleton. -/
theorem status_mapping (w : HttpWorld) (image : String) (h : image ≠ "") :
    (∀ doc, w.first = .resp 200 (some doc) →
      getSupportedArchitectures w image =
        (if dedupArchs doc.manifests = [] then .ok ["amd64"]
         else .ok (dedupArchs doc.manifests))) ∧
    (∀ body, w.first = .resp 401 body →
      getSupportedArchitectures w image = retryWithAuth w ∧
      (∀ st b2, (w.second = .timeoutErr ∨ w.second = .transportErr ∨
          (w.second = .resp st b2 ∧ st ≠ 200) ∨
          (w.second = .resp st none ∧ st = 200) ∨
          (∃ doc2, w.second = .resp st (some doc2) ∧ st = 200 ∧
            retryArchs doc2.manifests = [])) →
        getSupportedArchitectures w image = .ok ["amd64"])) ∧
    (∀ body, w.first = .resp 403 body →
      getSupportedArchitectures w image = .error .accessDenied) ∧
    (∀ body, w.first = .resp 404 body →
      getSupportedArchitectures w image = .error .imageNotFound) ∧
    (∀ body, w.first = .resp 400 body →
      getSupportedArchitectures w image = .error .unsupportedAPIVersion) ∧
    (∀ body, w.first = .resp 429 body →
      getSupportedArchitectures w image = .error .rateLimited) ∧
    (∀ st body, w.first = .resp st body →
      st ∉ ([200, 401, 403, 404, 400, 429] : List Nat) →
      getSupportedArchitectures w image = .ok ["amd64"]) := by
  have hrepo := parseImageReference_repo_ne h
  refine ⟨?_, ?_, ?_, ?_, ?_, ?_, ?_⟩
  · intro doc hw
    unfold getSupportedArchitectures
    rw [if_neg hrepo, hw]
    rfl
  · intro body hw
    have hmain : getSupportedArchitectures w image = retryWithAuth w := by
      unfold getSupportedArchitectures
      rw [if_neg hrepo, hw]
      rfl
    refine ⟨hmain, ?_⟩
    intro st b2 hcase
    rw [hmain]
    unfold retryWithAuth
    rcases hcase with h2 | h2 | ⟨h2, hst⟩ | ⟨h2, hst⟩ | ⟨doc2, h2, hst, hempty⟩
    · rw [h2]
    · rw [h2]
    · rw [h2]
      simp only []
      rw [if_pos hst]
    · subst hst
      rw [h2]
      simp
    · subst hst
      rw [h2]
      simp [hempty]
  · intro body hw
    unfold getSupportedArchitectures
    rw [if_neg hrepo, hw]
    rfl
  · intro body hw
    unfold getSupportedArchitectures
    rw [if_neg hrepo, hw]
    rfl
  · intro body hw
    unfold getSupportedArchitectures
    rw [if_neg hrepo, hw]
    rfl
  · intro body hw
    unfold getSupportedArchitectures
    rw [if_neg hrepo, hw]
    rfl
  · intro st body hw hnot
    unfold getSupportedArchitectures
    rw [if_neg hrepo, hw]
    simp only [List.mem_cons, List.mem_singleton] at hnot
    push_neg at hnot
    obtain ⟨h200, h401, h403, h404, h400, h429⟩ := hnot
    simp [h200, h401, h403, h404, h400, h429]

/-! ### Deduplication: which lists the registry client returns -/

/-- The "first occurrence" normal form used by the spec: keep each non-blank
architecture once, at the position of its first occurrence — written as a
recursion that keeps the head and filters out its later occurrences.
`dedupAux_eq_firstDedup` shows the source's seen-set loop computes exactly
this. -/
def firstDedup : List String → List String
  | [] => []
  | a :: rest => if a = "" then firstDedup rest
                 else a :: firstDedup (rest.filter (· ≠ a))
termination_by l => l.length
decreasing_by
  · simp only [List.length_cons]; omega
  · have := List.length_filter_le (· ≠ a) rest
    simp only [List.length_cons]
    omega

theorem mem_firstDedup : ∀ {l : List String} {x : String},
    x ∈ firstDedup l ↔ x ∈ l ∧ x ≠ "" := by
  intro l
  induction l using firstDedup.induct with
  | case1 => simp [firstDedup]
  | case2 rest ih =>
    intro x
    rw [firstDedup, if_pos rfl]
    rw [ih]
    simp only [List.mem_cons]
    constructor
    · rintro ⟨hx, hne⟩
      exact ⟨Or.inr hx, hne⟩
    · rintro ⟨hx | hx, hne⟩
      · exact absurd hx hne
      · exact ⟨hx, hne⟩
  | case3 a rest ha ih =>
    intro x
    rw [firstDedup, if_neg ha]
    simp only [List.mem_cons, ih, List.mem_filter, decide_eq_true_eq]
    constructor
    · rintro (rfl | ⟨⟨hx, _⟩, hne⟩)
      · exact ⟨Or.inl rfl, ha⟩
      · exact ⟨Or.inr hx, hne⟩
    · rintro ⟨rfl | hx, hne⟩
      · exact Or.inl rfl
      · by_cases hxa : x = a
        · exact Or.inl hxa
        · exact Or.inr ⟨⟨hx, hxa⟩, hne⟩

theorem nodup_firstDedup : ∀ l : List String, (firstDedup l).Nodup := by
  intro l
  induction l using firstDedup.induct with
  | case1 => simp [firstDedup]
  | case2 rest ih =>
    rw [firstDedup, if_pos rfl]
    exact ih
  | case3 a rest ha ih =>
    rw [firstDedup, if_neg ha]
    refine List.nodup_cons.mpr ⟨?_, ih⟩
    intro hmem
    have := (mem_firstDedup.mp hmem).1
    rw [List.mem_filter] at this
    simp at this

theorem indexOf_filter_lt (p : String → Bool) :
    ∀ (l : List String) (x y : String), x ∈ l.filter p → y ∈ l.filter p →
    (l.filter p).indexOf x < (l.filter p).indexOf y →
    l.indexOf x < l.indexOf y := by
  intro l
  induction l with
  | nil => intro x y hx _ _; simp at hx
  | cons b t ih =>
    intro x y hx hy hlt
    rw [List.filter_cons] at hx hy hlt
    by_cases hpb : p b = true
    · rw [if_pos hpb] at hx hy hlt
      by_cases hbx : b = x
      · subst hbx
        by_cases hby : b = y
        · subst hby
          omega
        · rw [List.indexOf_cons_self, List.indexOf_cons_ne _ hby]
          omega
      · rw [List.indexOf_cons_ne _ hbx] at hlt ⊢
        by_cases hby : b = y
        · subst hby
          rw [List.indexOf_cons_self] at hlt
          omega
        · rw [List.indexOf_cons_ne _ hby] at hlt ⊢
          have hxt : x ∈ t.filter p := by
            rcases List.mem_cons.mp hx with h' | h'
            · exact absurd h'.symm hbx
            · exact h'
          have hyt : y ∈ t.filter p := by
            rcases List.mem_cons.mp hy with h' | h'
            · exact absurd h'.symm hby
            · exact h'
          have := ih x y hxt hyt (by omega)
          omega
    · rw [if_neg hpb] at hx hy hlt
      have hbx : b ≠ x := by
        intro he
        subst he
        exact hpb (List.mem_filter.mp hx).2
      have hby : b ≠ y := by
        intro he
        subst he
        exact hpb (List.mem_filter.mp hy).2
      rw [List.indexOf_cons_ne _ hbx, List.indexOf_cons_ne _ hby]
      have := ih x y hx hy hlt
      omega

theorem pairwise_indexOf_firstDedup : ∀ l : List String,
    (firstDedup l).Pairwise (fun x y => l.indexOf x < l.indexOf y) := by
  intro l
  induction l using firstDedup.induct with
  | case1 => simp [firstDedup]
  | case2 rest ih =>
    rw [firstDedup, if_pos rfl]
    refine ih.imp_of_mem ?_
    intro x y hx hy hlt
    have hxne : x ≠ "" := (mem_firstDedup.mp hx).2
    have hyne : y ≠ "" := (mem_firstDedup.mp hy).2
    rw [List.indexOf_cons_ne _ (fun h => hxne h.symm),
        List.indexOf_cons_ne _ (fun h => hyne h.symm)]
    omega
  | case3 a rest ha ih =>
    rw [firstDedup, if_neg ha]
    refine List.pairwise_cons.mpr ⟨?_, ?_⟩
    · intro y hy
      have hyf := (mem_firstDedup.mp hy).1
      have hya : y ≠ a := by
        have := (List.mem_filter.mp hyf).2
        simpa using this
      rw [List.indexOf_cons_self, List.indexOf_cons_ne _ (fun h => hya h.symm)]
      omega
    · refine ih.imp_of_mem ?_
      intro x y hx hy hlt
      have hxf := (mem_firstDedup.mp hx).1
      have hyf := (mem_firstDedup.mp hy).1
      have hxa : x ≠ a := by
        have := (List.mem_filter.mp hxf).2
        simpa using this
      have hya : y ≠ a := by
        have := (List.mem_filter.mp hyf).2
        simpa using this
      have := indexOf_filter_lt _ rest x y hxf hyf hlt
      rw [List.indexOf_cons_ne _ (fun h => hxa h.symm),
          List.indexOf_cons_ne _ (fun h => hya h.symm)]
      omega

theorem dedupAux_eq_firstDedup : ∀ (l acc : List String),
    dedupAux l acc = acc ++ firstDedup (l.filter (fun x => decide (x ∉ acc))) := by
  intro l
  induction l with
  | nil => intro acc; simp [dedupAux, firstDedup]
  | cons a rest ih =>
    intro acc
    unfold dedupAux
    rw [List.filter_cons]
    by_cases hcond : a ≠ "" ∧ a ∉ acc
    · rw [if_pos hcond, ih (acc ++ [a]),
        if_pos (by simpa using hcond.2)]
      rw [firstDedup, if_neg hcond.1, List.filter_filter]
      have hfeq : (rest.filter fun x => decide ¬x = a && decide (x ∉ acc))
          = rest.filter fun x => decide (x ∉ acc ++ [a]) := by
        refine List.filter_congr ?_
        intro x _
        by_cases h1 : x = a
        · subst h1
          simp [List.mem_append]
        · by_cases h2 : x ∈ acc <;> simp [List.mem_append, h1, h2]
      rw [hfeq, List.append_assoc, List.singleton_append]
    · rw [if_neg hcond, ih acc]
      push_neg at hcond
      by_cases ha : a ∈ acc
      · rw [if_neg (by simpa using ha)]
      · have ha0 : a = "" := by
          by_contra h0
          exact ha (hcond h0)
        rw [if_pos (by simpa using ha), firstDedup, if_pos ha0]

theorem dedupArchs_eq_firstDedup (l : List String) :
    dedupArchs l = firstDedup l := by
  unfold dedupArchs
  rw [dedupAux_eq_firstDedup]
  have : (l.filter fun x => decide (x ∉ ([] : List String))) = l := by
    rw [show (fun x => decide (x ∉ ([] : List String)))
          = (fun _ : String => true) by funext x; simp]
    exact List.filter_true l
  rw [this, List.nil_append]

/-- C6 (amended): on the primary 200 path the returned list is deduplicated
preserving first occurrence: every `.ok` list is `Nodup`; when the dedup
result is non-empty it is exactly what is returned; it holds exactly the
non-blank architectures of the document; and its order is by first occurrence
(`indexOf`) in the document.  (On the 401-retry path blanks are removed but
duplicates survive — see the counterexample.) -/
theorem dedup_firstOccurrence (w : HttpWorld) (image : String)
    (doc : DockerHubManifest) (h : image ≠ "")
    (hw : w.first = .resp 200 (some doc)) :
    (∀ l, getSupportedArchitectures w image = .ok l → l.Nodup) ∧
    (dedupArchs doc.manifests ≠ [] →
      getSupportedArchitectures w image = .ok (dedupArchs doc.manifests)) ∧
    (∀ a, a ∈ dedupArchs doc.manifests ↔ a ∈ doc.manifests ∧ a ≠ "") ∧
    (dedupArchs doc.manifests).Pairwise
      (fun a b => doc.manifests.indexOf a < doc.manifests.indexOf b) := by
  have hmain : getSupportedArchitectures w image =
      (if dedupArchs doc.manifests = [] then .ok ["amd64"]
       else .ok (dedupArchs doc.manifests)) := by
    unfold getSupportedArchitectures
    rw [if_neg (parseImageReference_repo_ne h), hw]
    rfl
  refine ⟨?_, ?_, ?_, ?_⟩
  · intro l hl
    rw [hmain] at hl
    split at hl
    · cases hl
      simp
    · cases hl
      rw [dedupArchs_eq_firstDedup]
      exact nodup_firstDedup _
  · intro hne
    rw [hmain, if_neg hne]
  · intro a
    rw [dedupArchs_eq_firstDedup]
    exact mem_firstDedup
  · rw [dedupArchs_eq_firstDedup]
    exact pairwise_indexOf_firstDedup _

/-- C6 (counterexample to the claim as stated): on the 401-retry path the
body `["amd64", "arm64", "amd64"]` is returned with the duplicate intact —
the retry loop filters blanks but does not deduplicate. -/
theorem dedup_counterexample :
    getSupportedArchitectures
        (HttpWorld.mk (.resp 401 none)
          (.resp 200 (some ⟨["amd64", "arm64", "amd64"]⟩))) "nginx"
      = .ok ["amd64", "arm64", "amd64"] ∧
    ¬ (["amd64", "arm64", "amd64"] : List String).Nodup := by
  constructor
  · unfold getSupportedArchitectures
    rw [if_neg (parseImageReference_repo_ne (by decide))]
    rfl
  · decide

theorem dedup_firstOccurrence_witness :
    (("nginx" : String) ≠ "" ∧
     (HttpWorld.mk (.resp 200 (some ⟨["amd64", "amd64", "arm64"]⟩))
        (.resp 200 none)).first
       = .resp 200 (some ⟨["amd64", "amd64", "arm64"]⟩)) ∧
    (∀ l, getSupportedArchitectures
        (HttpWorld.mk (.resp 200 (some ⟨["amd64", "amd64", "arm64"]⟩))
          (.resp 200 none)) "nginx" = .ok l → l.Nodup) :=
  ⟨⟨by decide, rfl⟩,
   (dedup_firstOccurrence
      (HttpWorld.mk (.resp 200 (some ⟨["amd64", "amd64", "arm64"]⟩))
        (.resp 200 none)) "nginx" ⟨["amd64", "amd64", "arm64"]⟩
      (by decide) rfl).1⟩

theorem status_mapping_witness :
    ("nginx" : String) ≠ "" ∧
    (∀ body, (HttpWorld.mk (.resp 429 none) (.resp 200 none)).first
        = .resp 429 body →
      getSupportedArchitectures
        (HttpWorld.mk (.resp 429 none) (.resp 200 none)) "nginx"
        = .error .rateLimited) :=
  ⟨by decide,
   (status_mapping (HttpWorld.mk (.resp 429 none) (.resp 200 none)) "nginx"
      (by decide)).2.2.2.2.2.1⟩

/-! ## Components C6/C7: the mutator and the admission pipeline
(`src/unnamed/part_002`, i.e. the registry-aware `internal/webhook/mutator.go`,
and `internal/webhook/handler.go`)

The Kubernetes `json.Unmarshal` of the inner pod is modelled as an
`Option Pod` already attached to the request; the mutator's registry call
(`client.GetSupportedArchitectures`) is abstracted as a per-image
`Except RegErr (List String)` reply, instantiated with the DockerHub client
model where needed.  Credential resolution only selects which client
performs the call and cannot change the shape of the reply, so it does not
appear in the mutator model. -/

/-- A JSON-patch value: the node-selector map or a bare architecture
string. -/
inductive PatchValue where
  | map (entries : List (String × String))
  | str (s : String)
  deriving Repr, DecidableEq

/-- Embeds `JSONPatch{Op, Path string; Value interface{}}`. -/
structure JSONPatch where
  op : String
  path : String
  value : PatchValue
  deriving Repr, DecidableEq

structure Container where
  image : String
  deriving Repr, DecidableEq

/-- The pod fields the mutator reads; `nodeSelector = none` models a nil Go
map (an empty non-nil map is `some []`). -/
structure Pod where
  nodeSelector : Option (List (String × String))
  containers : List Container
  initContainers : List Container
  deriving Repr, DecidableEq

/-- The admission-request fields the pipeline reads; `objectRaw` is the
outcome of `json.Unmarshal(req.Object.Raw, &pod)` (`none` = decode
failure). -/
structure AdmissionRequest where
  uid : String
  objectRaw : Option Pod
  deriving Repr, DecidableEq

/-- `if _, exists := pod.Spec.NodeSelector["kubernetes.io/arch"]; exists`. -/
def hasArchKey (ns : List (String × String)) : Bool :=
  ns.any (fun kv => kv.1 = "kubernetes.io/arch")

/-- Embeds `extractImages`: non-empty images of main containers, then of init
containers. -/
def extractImages (pod : Pod) : List String :=
  (pod.containers.map Container.image).filter (· ≠ "") ++
  (pod.initContainers.map Container.image).filter (· ≠ "")

/-- Embeds `createNodeSelectorPatches`. -/
def createNodeSelectorPatches (pod : Pod) (arch : String) : List JSONPatch :=
  match pod.nodeSelector with
  | none => [⟨"add", "/spec/nodeSelector", .map [("kubernetes.io/arch", arch)]⟩]
  | some _ => [⟨"add", "/spec/nodeSelector/kubernetes.io~1arch", .str arch⟩]

/-- The cache-miss tail of `detectArchitecture`: query the registry; on error
or empty list fall back to the default (without populating the cache),
otherwise cache the list and return its first element. -/
def detectFromRegistry (c : MemoryCache) (defaultArch : String)
    (reply : Except RegErr (List String)) (image : String) :
    String × MemoryCache :=
  match reply with
  | .error _ => (defaultArch, c)
  | .ok [] => (defaultArch, c)
  | .ok (a :: rest) => (a, c.set image (a :: rest))

/-- Embeds `Mutator.detectArchitecture`: on a cache hit with a non-empty list
return its first element; otherwise (miss, or hit with an empty list) fall
through to the registry. -/
def detectArchitecture (c : MemoryCache) (defaultArch : String)
    (reply : Except RegErr (List String)) (image : String) :
    String × MemoryCache :=
  match c.get image with
  | (some (a :: _), c') => (a, c')
  | (some [], c') => detectFromRegistry c' defaultArch reply image
  | (none, c') => detectFromRegistry c' defaultArch reply image

/-- Embeds `Mutator.Mutate` (registry-aware variant): returns the patches,
the Go error (always `nil` = `none` in the source), and the cache state. -/
def mutate (c : MemoryCache) (defaultArch : String)
    (reply : String → Except RegErr (List String)) (req : AdmissionRequest) :
    List JSONPatch × Option String × MemoryCache :=
  match req.objectRaw with
  | none => ([], none, c)
  | some pod =>
      if (match pod.nodeSelector with
          | some ns => hasArchKey ns
          | none => false) then ([], none, c)
      else
        match extractImages pod with
        | [] => ([], none, c)
        | img :: _ =>
            let r := detectArchitecture c defaultArch (reply img) img
            (createNodeSelectorPatches pod r.1, none, r.2)

/-- The decoded admission-review envelope. -/
structure AdmissionReview where
  apiVersion : String
  request : Option AdmissionRequest
  deriving Repr, DecidableEq

structure AdmissionResponse where
  uid : String
  allowed : Bool
  patch : Option (List JSONPatch)
  deriving Repr, DecidableEq

/-- Outcome of reading the request body, length-capped at 1 MiB: oversize,
read error, or bytes with their `json.Unmarshal` result (`none` = unmarshal
failure). -/
inductive BodyRead where
  | tooLarge
  | readErr
  | bytes (decoded : Option AdmissionReview)
  deriving Repr, DecidableEq

inductive ServeResult where
  | httpError (status : Nat)
  | ok (resp : AdmissionResponse)
  deriving Repr, DecidableEq

/-- Embeds `processAdmissionRequest`: always `Allowed: true`; a mutator error
or a patch-marshal failure just drops the patch. -/
def processAdmissionRequest (req : AdmissionRequest)
    (mutateResult : List JSONPatch × Option String) (patchMarshalOk : Bool) :
    AdmissionResponse :=
  match mutateResult with
  | (_, some _) => ⟨req.uid, true, none⟩
  | (patches, none) =>
      if patches.length > 0 then
        if patchMarshalOk then ⟨req.uid, true, some patches⟩
        else ⟨req.uid, true, none⟩
      else ⟨req.uid, true, none⟩

/-- Embeds `AdmissionHandler.ServeHTTP`: size cap, read, unmarshal, the
validation gate (request present, UID non-empty, API version present and
exactly `admission.k8s.io/v1`), processing, and the response marshal
(`marshalOk = false` models the pathological `json.Marshal` failure →
HTTP 500).  The source's `&admissionReview == nil` check is a Go
address-of-local comparison that can never fire and has no model. -/
def serveHTTP (body : BodyRead)
    (mutateFn : AdmissionRequest → List JSONPatch × Option String)
    (marshalOk patchMarshalOk : Bool) : ServeResult :=
  match body with
  | .tooLarge => .httpError 413
  | .readErr => .httpError 400
  | .bytes none => .httpError 400
  | .bytes (some ar) =>
      match ar.request with
      | none => .httpError 400
      | some req =>
          if req.uid = "" then .httpError 400
          else if ar.apiVersion = "" then .httpError 400
          else if ar.apiVersion ≠ "admission.k8s.io/v1" then .httpError 400
          else if marshalOk then
            .ok (processAdmissionRequest req (mutateFn req) patchMarshalOk)
          else .httpError 500

theorem processAdmissionRequest_allowed (req : AdmissionRequest)
    (r : List JSONPatch × Option String) (pOk : Bool) :
    (processAdmissionRequest req r pOk).allowed = true := by
  obtain ⟨patches, err⟩ := r
  cases err with
  | none =>
    unfold processAdmissionRequest
    dsimp only
    by_cases h : patches.length > 0
    · rw [if_pos h]
      cases pOk <;> rfl
    · rw [if_neg h]
  | some e => rfl

/-- C2: the pipeline fails open — whenever an admission response is emitted
(i.e. the review passed the validation gate and the response marshalled),
the response has `allowed = true`, for every mutator behaviour, including
every error. -/
theorem fail_open (body : BodyRead)
    (mutateFn : AdmissionRequest → List JSONPatch × Option String)
    (marshalOk patchMarshalOk : Bool) (resp : AdmissionResponse)
    (h : serveHTTP body mutateFn marshalOk patchMarshalOk = .ok resp) :
    resp.allowed = true := by
  unfold serveHTTP at h
  split at h
  · cases h
  · cases h
  · cases h
  · rename_i ar
    split at h
    · cases h
    · rename_i req
      split at h
      · cases h
      · split at h
        · cases h
        · split at h
          · cases h
          · split at h
            · cases h
              exact processAdmissionRequest_allowed _ _ _
            · cases h

theorem fail_open_witness :
    serveHTTP
        (.bytes (some ⟨"admission.k8s.io/v1", some ⟨"uid-1", none⟩⟩))
        (fun _ => ([], some "mutator blew up")) true true
      = .ok ⟨"uid-1", true, none⟩ ∧
    (⟨"uid-1", true, none⟩ : AdmissionResponse).allowed = true :=
  ⟨rfl, fail_open
    (.bytes (some ⟨"admission.k8s.io/v1", some ⟨"uid-1", none⟩⟩))
    (fun _ => ([], some "mutator blew up")) true true
    ⟨"uid-1", true, none⟩ rfl⟩

/-- C8: mutating a pod that already carries the `kubernetes.io/arch`
node-selection key returns the empty patch, no error, and leaves the cache
untouched. -/
theorem mutate_idempotent (c : MemoryCache) (defaultArch : String)
    (reply : String → Except RegErr (List String)) (req : AdmissionRequest)
    (pod : Pod) (ns : List (String × String))
    (hdec : req.objectRaw = some pod)
    (hns : pod.nodeSelector = some ns)
    (hkey : hasArchKey ns = true) :
    mutate c defaultArch reply req = ([], none, c) := by
  unfold mutate
  rw [hdec]
  have hcond : (match pod.nodeSelector with
      | some ns => hasArchKey ns
      | none => false) = true := by
    rw [hns]
    exact hkey
  dsimp only
  rw [if_pos hcond]

theorem mutate_idempotent_witness :
    ((⟨"uid-2", some ⟨some [("kubernetes.io/arch", "arm64")], [⟨"nginx"⟩], []⟩⟩ :
        AdmissionRequest).objectRaw
      = some ⟨some [("kubernetes.io/arch", "arm64")], [⟨"nginx"⟩], []⟩ ∧
     (⟨some [("kubernetes.io/arch", "arm64")], [⟨"nginx"⟩], []⟩ : Pod).nodeSelector
      = some [("kubernetes.io/arch", "arm64")] ∧
     hasArchKey [("kubernetes.io/arch", "arm64")] = true) ∧
    mutate (newMemoryCache 1000 300) "amd64" (fun _ => .ok ["arm64"])
        ⟨"uid-2", some ⟨some [("kubernetes.io/arch", "arm64")], [⟨"nginx"⟩], []⟩⟩
      = ([], none, newMemoryCache 1000 300) :=
  ⟨⟨rfl, rfl, by decide⟩,
   mutate_idempotent (newMemoryCache 1000 300) "amd64" (fun _ => .ok ["arm64"])
     ⟨"uid-2", some ⟨some [("kubernetes.io/arch", "arm64")], [⟨"nginx"⟩], []⟩⟩
     ⟨some [("kubernetes.io/arch", "arm64")], [⟨"nginx"⟩], []⟩
     [("kubernetes.io/arch", "arm64")] rfl rfl (by decide)⟩

/-! ### The architecture resolver never returns the empty string -/

theorem retryWithAuth_ok_inv {w : HttpWorld} {l : List String}
    (h : retryWithAuth w = .ok l) : l ≠ [] ∧ "" ∉ l := by
  unfold retryWithAuth at h
  split at h
  · cases h; exact ⟨by simp, by simp⟩
  · cases h; exact ⟨by simp, by simp⟩
  · split at h
    · cases h; exact ⟨by simp, by simp⟩
    · split at h
      · cases h; exact ⟨by simp, by simp⟩
      · split at h
        · cases h; exact ⟨by simp, by simp⟩
        · rename_i hne
          cases h
          refine ⟨hne, ?_⟩
          intro hmem
          have := List.mem_filter.mp hmem
          simp at this

theorem getSupported_ok_inv {w : HttpWorld} {image : String} {l : List String}
    (h : getSupportedArchitectures w image = .ok l) : l ≠ [] ∧ "" ∉ l := by
  unfold getSupportedArchitectures at h
  split at h
  · cases h; exact ⟨by simp, by simp⟩
  · split at h
    · cases h
    · cases h; exact ⟨by simp, by simp⟩
    · split at h
      · cases h
      · split at h
        · exact retryWithAuth_ok_inv h
        · split at h
          · cases h
          · split at h
            · cases h
            · split at h
              · cases h
              · split at h
                · split at h
                  · cases h
                  · rename_i doc hne
                    split at h
                    · cases h; exact ⟨by simp, by simp⟩
                    · rename_i hne'
                      cases h
                      refine ⟨hne', ?_⟩
                      intro hmem
                      rw [dedupArchs_eq_firstDedup] at hmem
                      exact (mem_firstDedup.mp hmem).2 rfl
                · cases h; exact ⟨by simp, by simp⟩

theorem mapFind_mem : ∀ {items : List (String × CacheEntry)} {key : String}
    {e : CacheEntry}, mapFind items key = some e → (key, e) ∈ items := by
  intro items
  induction items with
  | nil => intro key e h; simp [mapFind] at h
  | cons head rest ih =>
    intro key e h
    obtain ⟨k, e'⟩ := head
    unfold mapFind at h
    split at h
    · rename_i hk
      cases h
      subst hk
      exact List.mem_cons_self _ _
    · exact List.mem_cons_of_mem _ (ih h)

theorem get_some_value {c : MemoryCache} {key : String} {v : List String}
    {c' : MemoryCache} (h : c.get key = (some v, c')) :
    ∃ e, (key, e) ∈ c.items ∧ v = e.value := by
  unfold MemoryCache.get at h
  split at h
  · cases h
  · rename_i entry hf
    split at h
    · cases h
    · cases h
      exact ⟨entry, mapFind_mem hf, rfl⟩

/-- C9: the resolver returns a non-empty token, and follows the claimed
shape: on a cache hit with a non-empty cached list it returns the first
cached element; otherwise it returns the first element of the registry
result, or the configured default on error/empty.  `hcache` is the reachable
cache invariant (only blank-free registry lists are ever stored — preserved
by `detectFromRegistry`, which never caches the default). -/
theorem detect_arch_spec (c : MemoryCache) (defaultArch : String)
    (w : HttpWorld) (image : String) (hd : defaultArch ≠ "")
    (hcache : ∀ p ∈ c.items, "" ∉ p.2.value) :
    (∀ a rest c', c.get image = (some (a :: rest), c') →
      detectArchitecture c defaultArch (getSupportedArchitectures w image)
        image = (a, c')) ∧
    (∀ c', c.get image = (none, c') →
      detectArchitecture c defaultArch (getSupportedArchitectures w image)
        image
        = detectFromRegistry c' defaultArch
            (getSupportedArchitectures w image) image) ∧
    (detectArchitecture c defaultArch (getSupportedArchitectures w image)
        image).1 ≠ "" := by
  refine ⟨?_, ?_, ?_⟩
  · intro a rest c' hget
    unfold detectArchitecture
    rw [hget]
  · intro c' hget
    unfold detectArchitecture
    rw [hget]
  · unfold detectArchitecture
    have hreg : ∀ c'' : MemoryCache,
        (detectFromRegistry c'' defaultArch
          (getSupportedArchitectures w image) image).1 ≠ "" := by
      intro c''
      unfold detectFromRegistry
      split
      · exact hd
      · exact hd
      · rename_i a rest hok
        intro ha
        subst ha
        exact (getSupported_ok_inv hok).2 (List.mem_cons_self _ _)
    split
    · rename_i a rest c' hget
      intro ha
      subst ha
      obtain ⟨e, hmem, hv⟩ := get_some_value hget
      exact hcache (image, e) hmem (hv ▸ List.mem_cons_self _ _)
    · rename_i c' _
      exact hreg c'
    · rename_i c' _
      exact hreg c'

theorem detect_arch_spec_witness :
    (("amd64" : String) ≠ "" ∧
     (∀ p ∈ (newMemoryCache 1000 300).items, "" ∉ p.2.value)) ∧
    (detectArchitecture (newMemoryCache 1000 300) "amd64"
        (getSupportedArchitectures (HttpWorld.mk .transportErr .transportErr)
          "nginx") "nginx").1 ≠ "" :=
  ⟨⟨by decide, by intro p hp; simp [newMemoryCache] at hp⟩,
   (detect_arch_spec (newMemoryCache 1000 300) "amd64"
      (HttpWorld.mk .transportErr .transportErr) "nginx" (by decide)
      (by intro p hp; simp [newMemoryCache] at hp)).2.2⟩

/-! ## Component C4: the credential resolver
(package `credentials`, `Resolver` — the file also carrying
`dockerhub_test.go` in this snapshot)

`getPodCredentials` and `getServiceAccountCredentials` call the orchestrator
client (external collaborator); their outcomes are the `podCred` / `saCred`
parameters.  `time.Now()` during one `ResolveCredentials` call is the `now`
parameter; the cache is threaded explicitly. -/

structure RegistryCredential where
  username : String
  password : String
  registry : String
  deriving Repr, DecidableEq

/-- A credential-cache entry (`cacheEntry{credential *RegistryCredential;
expiry time.Time}`). -/
structure CredCacheEntry where
  credential : Option RegistryCredential
  expiry : Int
  deriving Repr, DecidableEq

def credFind (cache : List (String × CredCacheEntry)) (key : String) :
    Option CredCacheEntry :=
  match cache with
  | [] => none
  | (k, e) :: rest => if k = key then some e else credFind rest key

def credInsert (cache : List (String × CredCacheEntry)) (key : String)
    (e : CredCacheEntry) : List (String × CredCacheEntry) :=
  match cache with
  | [] => [(key, e)]
  | (k, e') :: rest =>
      if k = key then (k, e) :: rest else (k, e') :: credInsert rest key e

/-- `strings.Split(s, sep)[0]` for a single-character separator (the only use
the source makes of the split). -/
def firstSegment (s : String) (sep : Char) : String :=
  ⟨s.toList.takeWhile (· ≠ sep)⟩

/-- Embeds `extractRegistry`. -/
def extractRegistry (imageRef : String) : String :=
  if ¬ containsChar imageRef '/' ∨
      (¬ containsChar imageRef '.' ∧ ¬ containsChar imageRef ':') then
    "docker.io"
  else if containsChar (firstSegment imageRef '/') '.' ∨
      containsChar (firstSegment imageRef '/') ':' then
    firstSegment imageRef '/'
  else "docker.io"

/-- Embeds `Resolver.getFromCache`: miss on absent or expired
(`time.Now().After(entry.expiry)`) entries, else the stored credential. -/
def getFromCache (cache : List (String × CredCacheEntry)) (now : Int)
    (key : String) : Option RegistryCredential :=
  match credFind cache key with
  | none => none
  | some entry => if entry.expiry < now then none else entry.credential

/-- Embeds `Resolver.setCache`: store the credential with expiry
`now + ttl`. -/
def setCache (cache : List (String × CredCacheEntry)) (now ttl : Int)
    (key : String) (cred : RegistryCredential) :
    List (String × CredCacheEntry) :=
  credInsert cache key ⟨some cred, now + ttl⟩

/-- The cache key `fmt.Sprintf("%s/%s:%s", pod.Namespace, pod.Name,
registry)`. -/
def credCacheKey (podNs podName registry : String) : String :=
  podNs ++ "/" ++ podName ++ ":" ++ registry

/-- Embeds `Resolver.ResolveCredentials`: serve from cache; else pod pull
secrets, then service-account pull secrets (each cached on success); else
anonymous (`nil, nil`) without caching. -/
def resolveCredentials (cache : List (String × CredCacheEntry)) (ttl now : Int)
    (podNs podName : String) (podCred saCred : Option RegistryCredential)
    (imageRef : String) :
    Option RegistryCredential × List (String × CredCacheEntry) :=
  match getFromCache cache now
      (credCacheKey podNs podName (extractRegistry imageRef)) with
  | some cred => (some cred, cache)
  | none =>
      match podCred with
      | some cred =>
          (some cred, setCache cache now ttl
            (credCacheKey podNs podName (extractRegistry imageRef)) cred)
      | none =>
          match saCred with
          | some cred =>
              (some cred, setCache cache now ttl
                (credCacheKey podNs podName (extractRegistry imageRef)) cred)
          | none => (none, cache)

theorem credFind_credInsert_self
    (cache : List (String × CredCacheEntry)) (key : String)
    (e : CredCacheEntry) : credFind (credInsert cache key e) key = some e := by
  induction cache with
  | nil => simp [credInsert, credFind]
  | cons head rest ih =>
    obtain ⟨k, e'⟩ := head
    unfold credInsert
    by_cases hk : k = key
    · rw [if_pos hk]
      unfold credFind
      rw [if_pos hk]
    · rw [if_neg hk]
      unfold credFind
      rw [if_neg hk]
      exact ih

theorem resolveCredentials_hit (cache : List (String × CredCacheEntry))
    (ttl now : Int) (podNs podName : String)
    (podCred saCred : Option RegistryCredential) (imageRef : String)
    (cred : RegistryCredential)
    (h : getFromCache cache now
      (credCacheKey podNs podName (extractRegistry imageRef)) = some cred) :
    resolveCredentials cache ttl now podNs podName podCred saCred imageRef
      = (some cred, cache) := by
  unfold resolveCredentials
  rw [h]

/-- C10 (counterexample to the claim as stated): a resolution that ends
anonymous (no pod or service-account credential) stores nothing at all — the
cache stays empty, so it does not hold the negative result under any key. -/
theorem credcache_counterexample :
    resolveCredentials [] 300 0 "default" "pod1" none none
        "registry.example.com/image:tag"
      = (none, []) := by decide

/-- C10 (amended): when the key is not already cached and a credential is
resolved from pod or service-account pull secrets, the cache afterwards
holds it under `{namespace}/{pod-name}:{registry}` with expiry `now + ttl`
(default TTL five minutes), and a repeated resolve for the same key within
the TTL is served from the cache, unchanged; an anonymous result is not
cached and leaves the cache unchanged. -/
theorem credcache_spec (cache : List (String × CredCacheEntry))
    (ttl now : Int) (podNs podName : String)
    (podCred saCred : Option RegistryCredential) (imageRef : String)
    (hmiss : getFromCache cache now
      (credCacheKey podNs podName (extractRegistry imageRef)) = none) :
    ((resolveCredentials cache ttl now podNs podName podCred saCred
        imageRef).1
      = match podCred with
        | some c => some c
        | none => saCred) ∧
    (∀ cred, (resolveCredentials cache ttl now podNs podName podCred saCred
        imageRef).1 = some cred →
      credFind (resolveCredentials cache ttl now podNs podName podCred saCred
          imageRef).2
        (credCacheKey podNs podName (extractRegistry imageRef))
        = some ⟨some cred, now + ttl⟩) ∧
    ((resolveCredentials cache ttl now podNs podName podCred saCred
        imageRef).1 = none →
      (resolveCredentials cache ttl now podNs podName podCred saCred
        imageRef).2 = cache) ∧
    (∀ cred now' podCred' saCred',
      (resolveCredentials cache ttl now podNs podName podCred saCred
        imageRef).1 = some cred →
      ¬ now + ttl < now' →
      resolveCredentials
          (resolveCredentials cache ttl now podNs podName podCred saCred
            imageRef).2
          ttl now' podNs podName podCred' saCred' imageRef
        = (some cred,
           (resolveCredentials cache ttl now podNs podName podCred saCred
             imageRef).2)) := by
  have hres : resolveCredentials cache ttl now podNs podName podCred saCred
      imageRef
      = match podCred with
        | some cred =>
            (some cred, setCache cache now ttl
              (credCacheKey podNs podName (extractRegistry imageRef)) cred)
        | none =>
            match saCred with
            | some cred =>
                (some cred, setCache cache now ttl
                  (credCacheKey podNs podName (extractRegistry imageRef)) cred)
            | none => (none, cache) := by
    unfold resolveCredentials
    rw [hmiss]
  refine ⟨?_, ?_, ?_, ?_⟩
  · rw [hres]
    cases podCred with
    | some c => rfl
    | none => cases saCred <;> rfl
  · intro cred hcred
    rw [hres] at hcred ⊢
    cases podCred with
    | some c =>
      cases hcred
      exact credFind_credInsert_self _ _ _
    | none =>
      cases saCred with
      | some c =>
        cases hcred
        exact credFind_credInsert_self _ _ _
      | none => cases hcred
  · intro hnone
    rw [hres] at hnone ⊢
    cases podCred with
    | some c => cases hnone
    | none =>
      cases saCred with
      | some c => cases hnone
      | none => rfl
  · intro cred now' podCred' saCred' hcred hlive
    have hfind : credFind (resolveCredentials cache ttl now podNs podName
        podCred saCred imageRef).2
        (credCacheKey podNs podName (extractRegistry imageRef))
        = some ⟨some cred, now + ttl⟩ := by
      rw [hres] at hcred ⊢
      cases podCred with
      | some c =>
        cases hcred
        exact credFind_credInsert_self _ _ _
      | none =>
        cases saCred with
        | some c =>
          cases hcred
          exact credFind_credInsert_self _ _ _
        | none => cases hcred
    exact resolveCredentials_hit _ _ _ _ _ _ _ _ _ (by
      unfold getFromCache
      rw [hfind]
      exact if_neg hlive)

theorem credcache_spec_witness :
    (getFromCache [] 0
        (credCacheKey "default" "pod1"
          (extractRegistry "registry.example.com/image:tag")) = none) ∧
    ((resolveCredentials [] 300 0 "default" "pod1"
        (some ⟨"user", "pass", "registry.example.com"⟩) none
        "registry.example.com/image:tag").1
      = match some (⟨"user", "pass", "registry.example.com"⟩ :
            RegistryCredential) with
        | some c => some c
        | none => none) :=
  ⟨by decide,
   (credcache_spec [] 300 0 "default" "pod1"
      (some ⟨"user", "pass", "registry.example.com"⟩) none
      "registry.example.com/image:tag" (by decide)).1⟩

end Archy
